import Mathlib

/-!
# Verification of the change-aggregation engine of syncthing-inotify

This file gives a shallow embedding of the core logic of `syncwatcher.go`:
the ignore matcher (`shouldIgnore`), the tree aggregator (`aggregateChanges`)
and the change accumulator (`accumulateChanges`, modelled as the three
branches of its select loop acting on an explicit state), together with
theorems settling the specification claims about them.

Times are modelled as integers (Go `time.Time` / `time.Duration` values in
nanoseconds); the regular-expression engine behind `Pattern.match` is an
external library and is abstracted as a boolean predicate on strings; the
`os.Stat` call used by the aggregator is an injected classification function
`String → Option Bool` (`none` = stat error / path gone, `some b` = exists
with `IsDir = b`).  The Linux build is modelled: `os.PathSeparator` is `/`.
-/

namespace SyncWatcher

/-! ## Character-list utilities (Go `strings` helpers) -/

abbrev Chars := List Char

/-- Go `strings.HasPrefix` on rune lists: `pfxOf pre s` is true iff `pre`
is a prefix of `s`. -/
def pfxOf : Chars → Chars → Bool
  | [], _ => true
  | _ :: _, [] => false
  | a :: as, b :: bs => if a = b then pfxOf as bs else false

/-- Go `strings.Contains` on rune lists: `subOf sub s` is true iff `sub`
occurs as a contiguous substring of `s`. -/
def subOf (sub : Chars) : Chars → Bool
  | [] => pfxOf sub []
  | s :: rest => pfxOf sub (s :: rest) || subOf sub rest

/-- Go `<` on strings (lexicographic byte order; the modelled paths are
ASCII so rune order and byte order agree). -/
def lexLt : Chars → Chars → Bool
  | [], [] => false
  | [], _ :: _ => true
  | _ :: _, [] => false
  | a :: as, b :: bs => if a = b then lexLt as bs else decide (a < b)

def strLt (a b : String) : Bool := lexLt a.data b.data

def strLe (a b : String) : Bool := strLt a b || decide (a = b)

/-- Go `strings.HasPrefix s pre`. -/
def hasPfx (s pre : String) : Bool := pfxOf pre.data s.data

/-- Go `strings.Contains s sub`. -/
def containsStr (s sub : String) : Bool := subOf sub.data s.data

/-- Go `strings.TrimPrefix`. -/
def trimPfx (s pre : String) : String :=
  if pfxOf pre.data s.data then ⟨s.data.drop pre.data.length⟩ else s

/-- `os.PathSeparator` of the Linux build, as a string. -/
def pathSeparator : String := "/"

/-! ## `path/filepath.Clean` and `Dir` (Unix rules) -/

/-- The backtracking loop of Go `filepath.Clean`'s `..` handling: starting
from write position `j`, decrease the position until it reaches `dotdot`
or the buffer holds `/` at that position. -/
def backIdx (out : Chars) (dotdot : Nat) : Nat → Nat
  | 0 => 0
  | j + 1 =>
    if j + 1 ≤ dotdot then j + 1
    else if out.getD (j + 1) ' ' = '/' then j + 1
    else backIdx out dotdot j

/-- The scanning loop of Go `filepath.Clean`.  The loop advances the read
index by at least one byte per iteration, so fuelling it with the length of
the remaining input reproduces the Go loop exactly. -/
def cleanLoop (rooted : Bool) : Nat → Chars → Chars → Nat → Chars
  | _, [], out, _ => out
  | 0, _ :: _, out, _ => out
  | fuel + 1, c :: rest, out, dotdot =>
    if c = '/' then
      -- empty path element
      cleanLoop rooted fuel rest out dotdot
    else if c = '.' ∧ (rest = [] ∨ rest.headD ' ' = '/') then
      -- "." element
      cleanLoop rooted fuel rest out dotdot
    else if c = '.' ∧ rest.headD ' ' = '.' ∧ (rest.tail = [] ∨ rest.tail.headD ' ' = '/') then
      -- ".." element: remove to last separator
      if dotdot < out.length then
        cleanLoop rooted fuel rest.tail (out.take (backIdx out dotdot (out.length - 1))) dotdot
      else if !rooted then
        let out2 := (if 0 < out.length then out ++ ['/'] else out) ++ ['.', '.']
        cleanLoop rooted fuel rest.tail out2 out2.length
      else
        cleanLoop rooted fuel rest.tail out dotdot
    else
      -- real path element: add slash if needed, then copy the element
      let out1 := if (if rooted then out.length ≠ 1 else out.length ≠ 0) then out ++ ['/'] else out
      cleanLoop rooted fuel (rest.dropWhile (fun ch => ch ≠ '/'))
        (out1 ++ (c :: rest.takeWhile (fun ch => ch ≠ '/'))) dotdot

/-- Go `filepath.Clean` on rune lists (Unix separators; `FromSlash` is the
identity on Unix). -/
def cleanChars (p : Chars) : Chars :=
  match p with
  | [] => ['.']
  | c :: rest =>
    let out :=
      if c = '/' then cleanLoop true rest.length rest ['/'] 1
      else cleanLoop false (c :: rest).length (c :: rest) [] 0
    if out = [] then ['.'] else out

def cleanStr (s : String) : String := ⟨cleanChars s.data⟩

/-- Go `filepath.Dir` (Unix): everything through the final separator,
cleaned. -/
def dirStr (s : String) : String :=
  ⟨cleanChars ((s.data.reverse.dropWhile (fun ch => ch ≠ '/')).reverse)⟩

/-! ## `sort.Strings` -/

def insertSorted (x : String) : List String → List String
  | [] => [x]
  | y :: ys => if strLe x y then x :: y :: ys else y :: insertSorted x ys

/-- Go `sort.Strings` (any comparison sort agrees on a linear order; we use
insertion sort). -/
def sortStrings (l : List String) : List String := l.foldr insertSorted []

/-! ## Ignore matcher -/

/-- `Pattern` from the source: a compiled regular expression plus polarity.
The regexp engine is external library code, so `matchP` abstracts
`match.MatchString` as a boolean predicate on paths. -/
structure Pattern where
  matchP : String → Bool
  isInclude : Bool


/-- The pattern loop of `shouldIgnore`: return true at the first
include-pattern matching `path` for which no exclude-pattern in `all`
matches `path`; otherwise fall through to false. -/
def matchesNoException (all : List Pattern) (path : String) : List Pattern → Bool
  | [] => false
  | p1 :: rest =>
    if p1.isInclude && p1.matchP path then
      if all.any (fun p2 => !p2.isInclude && p2.matchP path) then
        matchesNoException all path rest
      else true
    else matchesNoException all path rest

/-- `shouldIgnore` from the source: empty paths are never ignored; a path
containing a literal ignore-prefix is ignored; otherwise the pattern list
decides. -/
def shouldIgnore (ignorePaths : List String) (ignorePatterns : List Pattern)
    (path : String) : Bool :=
  if path.length = 0 then false
  else if ignorePaths.any (fun ignorePath => containsStr path ignorePath) then true
  else matchesNoException ignorePatterns path ignorePatterns

/-! ## Association-list maps

Go maps keyed by strings.  Insertion overwrites in place, deletion removes
the key; `bumpAncestors` is the per-path loop of `aggregateChanges` that
increments every tracked ancestor directory (the increments are
independent, so the unspecified Go map iteration order is immaterial). -/

def lookupKey {A : Type} : List (String × A) → String → Option A
  | [], _ => none
  | (k, v) :: rest, key => if k = key then some v else lookupKey rest key

def insertKey {A : Type} : List (String × A) → String → A → List (String × A)
  | [], key, v => [(key, v)]
  | (k, w) :: rest, key, v =>
    if k = key then (key, v) :: rest else (k, w) :: insertKey rest key v

def eraseKey {A : Type} : List (String × A) → String → List (String × A)
  | [], _ => []
  | (k, v) :: rest, key =>
    if k = key then eraseKey rest key else (k, v) :: eraseKey rest key

/-! ## Tree aggregator (`aggregateChanges`) -/

/-- Working state of the first loop of `aggregateChanges`: path scores
(`-1` marks a file), the set of known directories, and the previous cleaned
path used to drop consecutive duplicates of the sorted input. -/
structure AggState where
  trackedPaths : List (String × Int)
  trackedDirs : List String
  previousPath : String

/-- Go `trackedDirs[d] = true` (set insertion). -/
def addDir (dirs : List String) (d : String) : List String :=
  if d ∈ dirs then dirs else dirs ++ [d]

/-- The inner loop of `aggregateChanges`: bump the score of every tracked
directory of which `dir` is a strict path-descendant. -/
def bumpAncestors (dir : String) (dirs : List String) (tp : List (String × Int)) :
    List (String × Int) :=
  tp.map (fun kv =>
    if kv.1 ∈ dirs ∧ hasPfx dir (kv.1 ++ pathSeparator) then (kv.1, kv.2 + 1) else kv)

/-- One iteration of the first loop of `aggregateChanges`: clean the path,
drop consecutive duplicates, classify via `stat`, strip the folder prefix
and score the path (directories and vanished paths get `dirVsFiles`, files
get `-1` and bump their parent), then propagate weight to tracked
ancestors. -/
def aggStep (stat : String → Option Bool) (folderPath : String) (dirVsFiles : Int)
    (st : AggState) (rawPath : String) : AggState :=
  let path0 := cleanStr rawPath
  let path1 := if path0 = "." then "" else path0
  if path1 = st.previousPath then st
  else
    let fi := stat path1
    let path := trimPfx (trimPfx path1 folderPath) pathSeparator
    match fi with
    | none =>
      -- definitely inform if the path does not exist anymore
      let tp := insertKey st.trackedPaths path dirVsFiles
      { trackedPaths := bumpAncestors path st.trackedDirs tp
        trackedDirs := st.trackedDirs
        previousPath := path1 }
    | some true =>
      -- definitely inform if a directory changed
      let tp := insertKey st.trackedPaths path dirVsFiles
      let dirs := addDir st.trackedDirs path
      { trackedPaths := bumpAncestors path dirs tp
        trackedDirs := dirs
        previousPath := path1 }
    | some false =>
      -- files are linked to -1 scores and increment their parent by 1
      let dir0 := dirStr path
      let dir := if dir0 = "." then "" else dir0
      let tp1 := insertKey st.trackedPaths path (-1)
      let tp2 := insertKey tp1 dir ((lookupKey tp1 dir).getD 0 + 1)
      let dirs := addDir st.trackedDirs dir
      { trackedPaths := bumpAncestors dir dirs tp2
        trackedDirs := dirs
        previousPath := path1 }

/-- The second loop of `aggregateChanges`: walk the sorted keys, skipping
strict descendants of the most recently accepted key and keys whose score
is below `dirVsFiles` (files, score `-1`, always pass); stop after
accepting the whole-folder key `""`. -/
def selectScans (tp : List (String × Int)) (dirVsFiles : Int) :
    List String → String → List String
  | [], _ => []
  | k :: rest, prev =>
    if hasPfx k (prev ++ pathSeparator) then selectScans tp dirVsFiles rest prev
    else
      let score := (lookupKey tp k).getD 0
      if score < dirVsFiles ∧ score ≠ -1 then selectScans tp dirVsFiles rest prev
      else if k = "" then [k]
      else k :: selectScans tp dirVsFiles rest k

/-- `aggregateChanges` from the source, with the callback factored out: it
returns `none` for an empty batch (the `"No changes to aggregate"` error)
and otherwise `some scans`, the scan-target list handed to the callback. -/
def aggregateChanges (stat : String → Option Bool) (folderPath : String)
    (dirVsFiles : Int) (paths : List String) : Option (List String) :=
  if paths = [] then none
  else
    let st := (sortStrings paths).foldl (aggStep stat folderPath dirVsFiles) ⟨[], [], ""⟩
    let keys := sortStrings (st.trackedPaths.map Prod.fst)
    some (selectScans st.trackedPaths dirVsFiles keys "")

/-! ## Change accumulator (`accumulateChanges`) -/

/-- `progressTime` from the source: which stream produced the entry
(`fsEvent = true` for the filesystem, `false` for Syncthing) and when. -/
structure ProgressTime where
  fsEvent : Bool
  time : Int
deriving DecidableEq

/-- The configuration closed over by one `accumulateChanges` goroutine:
the debounce timeout, the `delayScan` setting, the aggregation threshold
`dirVsFiles`, the tracked-path bound `maxFiles`, the folder root and the
injected `os.Stat` classifier. -/
structure AccConfig where
  debounceTimeout : Int
  delayScan : Int
  dirVsFiles : Int
  maxFiles : Nat
  folderPath : String
  stat : String → Option Bool

/-- Mutable state of the `accumulateChanges` loop: the `inProgress` table,
the current timer interval and the next scheduled delay-scan reminder. -/
structure AccState where
  inProgress : List (String × ProgressTime)
  currInterval : Int
  nextScanTime : Int
deriving DecidableEq

/-- `delayScanInterval := time.Duration(delayScan-5) * time.Second`
(nanoseconds). -/
def delayScanInterval (c : AccConfig) : Int := (c.delayScan - 5) * 1000000000

/-- The initial state of the loop: empty table, idle interval, reminder
scheduled one interval ahead. -/
def initState (c : AccConfig) (start : Int) : AccState :=
  { inProgress := []
    currInterval := delayScanInterval c
    nextScanTime := start + delayScanInterval c }

/-- The `stInput` branch of the select loop: an empty path speeds up the
timer; a finished item is deleted; otherwise the path is tracked as
Syncthing-origin unless the table is over the bound. -/
def stStep (c : AccConfig) (s : AccState) (path : String) (finished : Bool)
    (now : Int) : AccState :=
  if path = "" then { s with currInterval := c.debounceTimeout }
  else if finished then { s with inProgress := eraseKey s.inProgress path }
  else if s.inProgress.length > c.maxFiles then s
  else { s with inProgress := insertKey s.inProgress path ⟨false, now⟩ }

/-- The `fsInput` branch of the select loop: speed up the timer; if the
path is tracked as Syncthing-origin the change originated from Syncthing
and the entry is dropped without re-insertion; otherwise track it as
filesystem-origin unless the table is over the bound. -/
def fsStep (c : AccConfig) (s : AccState) (path : String) (now : Int) : AccState :=
  let s1 : AccState := { s with currInterval := c.debounceTimeout }
  match lookupKey s1.inProgress path with
  | some p =>
    if !p.fsEvent then { s1 with inProgress := eraseKey s1.inProgress path }
    else if s1.inProgress.length > c.maxFiles then s1
    else { s1 with inProgress := insertKey s1.inProgress path ⟨true, now⟩ }
  | none =>
    if s1.inProgress.length > c.maxFiles then s1
    else { s1 with inProgress := insertKey s1.inProgress path ⟨true, now⟩ }

/-- The cleanup performed while collecting the candidate batch on a timer
tick: entries with an empty path or older than `now - 10*debounceTimeout`
are deleted from the table. -/
def cleanupInProgress (c : AccConfig) (now : Int) :
    List (String × ProgressTime) → List (String × ProgressTime)
  | [] => []
  | (k, pr) :: rest =>
    if k = "" ∨ pr.time < now - c.debounceTimeout * 10 then cleanupInProgress c now rest
    else (k, pr) :: cleanupInProgress c now rest

/-- The candidate batch collected on a timer tick: the paths of the
surviving filesystem-origin entries (Syncthing-origin entries are waited
on, not reported). -/
def candidatePaths (c : AccConfig) (now : Int) :
    List (String × ProgressTime) → List String
  | [] => []
  | (k, pr) :: rest =>
    if k = "" ∨ pr.time < now - c.debounceTimeout * 10 then candidatePaths c now rest
    else if pr.fsEvent then k :: candidatePaths c now rest
    else candidatePaths c now rest

/-- On a successful report, each reported path is deleted from the table. -/
def removePaths (m : List (String × ProgressTime)) (ps : List String) :
    List (String × ProgressTime) :=
  ps.foldl eraseKey m

/-- On a successful whole-folder scan, every filesystem-origin entry is
deleted from the table. -/
def dropFsEntries : List (String × ProgressTime) → List (String × ProgressTime)
  | [] => []
  | (k, pr) :: rest =>
    if pr.fsEvent then dropFsEntries rest else (k, pr) :: dropFsEntries rest

/-- Result of one timer tick: the new state, whether the periodic
delay-scan reminder fired, and the scan-target list passed to the callback
(`none` when no report was attempted this tick). -/
structure TimerOut where
  state : AccState
  reminded : Bool
  mainCall : Option (List String)

/-- The timer branch of the select loop.  `ok` is the outcome of the
callback (the Notifier is an external collaborator): `true` models
`err == nil`. -/
def timerStep (c : AccConfig) (s : AccState) (now : Int) (ok : Bool) : TimerOut :=
  let remind : Bool := decide (0 < c.delayScan ∧ s.nextScanTime < now)
  let nst0 : Int := if remind then now + delayScanInterval c else s.nextScanTime
  if s.inProgress = [] then
    { state := { s with nextScanTime := nst0, currInterval := delayScanInterval c }
      reminded := remind, mainCall := none }
  else if s.inProgress.length < c.maxFiles then
    let surv := cleanupInProgress c now s.inProgress
    let paths := candidatePaths c now s.inProgress
    if paths = [] then
      { state := { s with inProgress := surv, nextScanTime := nst0 }
        reminded := remind, mainCall := none }
    else
      let scans := (aggregateChanges c.stat c.folderPath c.dirVsFiles paths).getD []
      if ok then
        { state := { inProgress := removePaths surv paths
                     currInterval := s.currInterval
                     nextScanTime := now + delayScanInterval c }
          reminded := remind, mainCall := some scans }
      else
        { state := { s with inProgress := surv, nextScanTime := nst0 }
          reminded := remind, mainCall := some scans }
  else
    if ok then
      { state := { s with inProgress := dropFsEntries s.inProgress
                          nextScanTime := now + delayScanInterval c }
        reminded := remind, mainCall := some [""] }
    else
      { state := { s with nextScanTime := nst0 }
        reminded := remind, mainCall := some [""] }

/-- The three event sources of the select loop, each carrying the time at
which it is processed (and, for the timer, the callback outcome). -/
inductive AccEvent where
  | st (path : String) (finished : Bool) (now : Int)
  | fs (path : String) (now : Int)
  | timer (now : Int) (ok : Bool)

/-- One step of the `accumulateChanges` loop. -/
def step (c : AccConfig) (s : AccState) : AccEvent → AccState
  | .st p f now => stStep c s p f now
  | .fs p now => fsStep c s p now
  | .timer now ok => (timerStep c s now ok).state

/-- The state reached after processing a sequence of events from the
initial state: the reachable states of one accumulator goroutine. -/
def run (c : AccConfig) (start : Int) (evs : List AccEvent) : AccState :=
  evs.foldl (step c) (initState c start)

/-- A well-formed file name for the density-threshold claim: nonempty,
separator-free and not one of the special elements `.` and `..` (so that
`filepath.Clean` leaves a path `a/<name>` unchanged and `filepath.Dir`
returns `a`). -/
def goodName (nm : String) : Prop :=
  nm ≠ "" ∧ (∀ ch ∈ nm.data, ch ≠ '/') ∧ nm ≠ "." ∧ nm ≠ ".."

instance (nm : String) : Decidable (goodName nm) := by
  unfold goodName
  infer_instance

/-! ## Supporting lemmas: association-list maps -/

theorem lookupKey_insertKey_self {A : Type} (m : List (String × A)) (k : String) (v : A) :
    lookupKey (insertKey m k v) k = some v := by
  induction m with
  | nil => simp [insertKey, lookupKey]
  | cons kv rest ih =>
    obtain ⟨k1, v1⟩ := kv
    by_cases h : k1 = k
    · subst h; simp [insertKey, lookupKey]
    · simp [insertKey, lookupKey, h, ih]

theorem length_insertKey_le {A : Type} (m : List (String × A)) (k : String) (v : A) :
    (insertKey m k v).length ≤ m.length + 1 := by
  induction m with
  | nil => simp [insertKey]
  | cons kv rest ih =>
    obtain ⟨k1, v1⟩ := kv
    by_cases h : k1 = k
    · simp [insertKey, h]
    · simp only [insertKey, if_neg h, List.length_cons]
      omega

theorem mem_eraseKey {A : Type} {kv : String × A} {m : List (String × A)} {k : String} :
    kv ∈ eraseKey m k → kv ∈ m ∧ kv.1 ≠ k := by
  induction m with
  | nil => simp [eraseKey]
  | cons kv1 rest ih =>
    obtain ⟨k1, v1⟩ := kv1
    by_cases h : k1 = k
    · subst h
      intro hm
      rcases ih (by simpa [eraseKey] using hm) with ⟨h1, h2⟩
      exact ⟨List.mem_cons_of_mem _ h1, h2⟩
    · intro hm
      rcases (by simpa [eraseKey, h] using hm : kv = (k1, v1) ∨ kv ∈ eraseKey rest k) with
        heq | hmem
      · subst heq; exact ⟨List.mem_cons_self _ _, h⟩
      · rcases ih hmem with ⟨h1, h2⟩
        exact ⟨List.mem_cons_of_mem _ h1, h2⟩

theorem lookupKey_eraseKey_self {A : Type} (m : List (String × A)) (k : String) :
    lookupKey (eraseKey m k) k = none := by
  induction m with
  | nil => simp [eraseKey, lookupKey]
  | cons kv rest ih =>
    obtain ⟨k1, v1⟩ := kv
    by_cases h : k1 = k <;> simp [eraseKey, lookupKey, h, ih]

theorem lookupKey_eraseKey_ne {A : Type} (m : List (String × A)) {k k2 : String}
    (h : k2 ≠ k) : lookupKey (eraseKey m k) k2 = lookupKey m k2 := by
  induction m with
  | nil => simp [eraseKey]
  | cons kv rest ih =>
    obtain ⟨k1, v1⟩ := kv
    by_cases h1 : k1 = k
    · simp [eraseKey, lookupKey, h1, Ne.symm h, ih]
    · by_cases h2 : k1 = k2 <;> simp [eraseKey, lookupKey, h1, h2, h, ih]

theorem eraseKey_eraseKey {A : Type} (m : List (String × A)) (k : String) :
    eraseKey (eraseKey m k) k = eraseKey m k := by
  induction m with
  | nil => simp [eraseKey]
  | cons kv rest ih =>
    obtain ⟨k1, v1⟩ := kv
    by_cases h : k1 = k <;> simp [eraseKey, h, ih]

theorem eraseKey_of_forall_ne {A : Type} {m : List (String × A)} {k : String}
    (h : ∀ kv ∈ m, kv.1 ≠ k) : eraseKey m k = m := by
  induction m with
  | nil => simp [eraseKey]
  | cons kv rest ih =>
    obtain ⟨k1, v1⟩ := kv
    have h1 : k1 ≠ k := h (k1, v1) (List.mem_cons_self _ _)
    simp only [eraseKey, if_neg h1]
    rw [ih (fun kv hkv => h kv (List.mem_cons_of_mem _ hkv))]

theorem lookupKey_eq_none_iff {A : Type} (m : List (String × A)) (k : String) :
    lookupKey m k = none ↔ ∀ kv ∈ m, kv.1 ≠ k := by
  induction m with
  | nil => simp [lookupKey]
  | cons kv rest ih =>
    obtain ⟨k1, v1⟩ := kv
    by_cases h : k1 = k <;> simp [lookupKey, h, ih]

theorem length_eraseKey_le {A : Type} (m : List (String × A)) (k : String) :
    (eraseKey m k).length ≤ m.length := by
  induction m with
  | nil => simp [eraseKey]
  | cons kv rest ih =>
    obtain ⟨k1, v1⟩ := kv
    by_cases h : k1 = k <;> simp [eraseKey, h] <;> omega

theorem length_cleanupInProgress_le (c : AccConfig) (now : Int)
    (m : List (String × ProgressTime)) :
    (cleanupInProgress c now m).length ≤ m.length := by
  induction m with
  | nil => simp [cleanupInProgress]
  | cons kv rest ih =>
    obtain ⟨k, pr⟩ := kv
    by_cases h : k = "" ∨ pr.time < now - c.debounceTimeout * 10 <;>
      simp [cleanupInProgress, h] <;> omega

theorem length_removePaths_le (m : List (String × ProgressTime)) (ps : List String) :
    (removePaths m ps).length ≤ m.length := by
  induction ps generalizing m with
  | nil => simp [removePaths]
  | cons p rest ih =>
    calc (removePaths m (p :: rest)).length = (removePaths (eraseKey m p) rest).length := rfl
    _ ≤ (eraseKey m p).length := ih _
    _ ≤ m.length := length_eraseKey_le m p

theorem length_dropFsEntries_le (m : List (String × ProgressTime)) :
    (dropFsEntries m).length ≤ m.length := by
  induction m with
  | nil => simp [dropFsEntries]
  | cons kv rest ih =>
    obtain ⟨k, pr⟩ := kv
    by_cases h : pr.fsEvent <;> simp [dropFsEntries, h] <;> omega

theorem exists_of_mem_candidatePaths {c : AccConfig} {now : Int}
    {m : List (String × ProgressTime)} {p : String} :
    p ∈ candidatePaths c now m → ∃ pr, (p, pr) ∈ m := by
  induction m with
  | nil => simp [candidatePaths]
  | cons kv rest ih =>
    obtain ⟨k, pr⟩ := kv
    by_cases h : k = "" ∨ pr.time < now - c.debounceTimeout * 10
    · intro hp
      rcases ih (by simpa [candidatePaths, h] using hp) with ⟨q, hq⟩
      exact ⟨q, List.mem_cons_of_mem _ hq⟩
    · by_cases hfs : pr.fsEvent
      · intro hp
        rcases (by simpa [candidatePaths, h, hfs] using hp : p = k ∨ p ∈ candidatePaths c now rest) with
          heq | hmem
        · subst heq; exact ⟨pr, List.mem_cons_self _ _⟩
        · rcases ih hmem with ⟨q, hq⟩
          exact ⟨q, List.mem_cons_of_mem _ hq⟩
      · intro hp
        rcases ih (by simpa [candidatePaths, h, hfs] using hp) with ⟨q, hq⟩
        exact ⟨q, List.mem_cons_of_mem _ hq⟩

/-! ## Supporting lemmas: the accumulator steps -/

theorem stStep_length_le (c : AccConfig) (s : AccState) (p : String) (f : Bool)
    (now : Int) (h : s.inProgress.length ≤ c.maxFiles + 1) :
    (stStep c s p f now).inProgress.length ≤ c.maxFiles + 1 := by
  by_cases hp : p = ""
  · simpa [stStep, hp] using h
  · by_cases hf : f
    · simp only [stStep, if_neg hp, if_pos hf]
      exact le_trans (length_eraseKey_le _ _) h
    · by_cases hlen : s.inProgress.length > c.maxFiles
      · simpa [stStep, hp, hf, hlen] using h
      · simp only [stStep, if_neg hp, if_neg hf, if_neg hlen]
        exact le_trans (length_insertKey_le _ _ _) (by omega)

theorem fsStep_length_le (c : AccConfig) (s : AccState) (p : String) (now : Int)
    (h : s.inProgress.length ≤ c.maxFiles + 1) :
    (fsStep c s p now).inProgress.length ≤ c.maxFiles + 1 := by
  simp only [fsStep]
  split
  · split
    · exact le_trans (length_eraseKey_le _ _) h
    · split
      · exact h
      · rename_i hlen
        exact le_trans (length_insertKey_le _ _ _) (by simp at hlen; omega)
  · split
    · exact h
    · rename_i hlen
      exact le_trans (length_insertKey_le _ _ _) (by simp at hlen; omega)

theorem timerStep_length_le (c : AccConfig) (s : AccState) (now : Int) (ok : Bool) :
    (timerStep c s now ok).state.inProgress.length ≤ s.inProgress.length := by
  simp only [timerStep]
  split
  · simp
  · split
    · split
      · exact length_cleanupInProgress_le c now _
      · split
        · exact le_trans (length_removePaths_le _ _) (length_cleanupInProgress_le c now _)
        · exact length_cleanupInProgress_le c now _
    · split
      · exact length_dropFsEntries_le _
      · simp

theorem step_length_le (c : AccConfig) (s : AccState) (e : AccEvent)
    (h : s.inProgress.length ≤ c.maxFiles + 1) :
    (step c s e).inProgress.length ≤ c.maxFiles + 1 := by
  cases e with
  | st p f now => exact stStep_length_le c s p f now h
  | fs p now => exact fsStep_length_le c s p now h
  | timer now ok => exact le_trans (timerStep_length_le c s now ok) h

theorem run_length_le (c : AccConfig) (start : Int) (evs : List AccEvent) :
    (run c start evs).inProgress.length ≤ c.maxFiles + 1 := by
  suffices h : ∀ s : AccState, s.inProgress.length ≤ c.maxFiles + 1 →
      (evs.foldl (step c) s).inProgress.length ≤ c.maxFiles + 1 by
    exact h _ (by simp [initState])
  induction evs with
  | nil => intro s hs; exact hs
  | cons e rest ih =>
    intro s hs
    exact ih _ (step_length_le c s e hs)

/-! ## Claims about the change accumulator -/

/-- **C9** (confirmed): a remote progress event with an empty path only
shrinks the current debounce interval to the debounce timeout; the
tracking table and the reminder deadline are untouched (for either value
of `finished`, since the empty-path branch comes first). -/
theorem c9_empty_path_shrinks_interval_only (c : AccConfig) (s : AccState)
    (finished : Bool) (now : Int) :
    (stStep c s "" finished now).currInterval = c.debounceTimeout
    ∧ (stStep c s "" finished now).inProgress = s.inProgress
    ∧ (stStep c s "" finished now).nextScanTime = s.nextScanTime := by
  simp [stStep]

/-- **C8** (counterexample): a `finished` event whose path is the empty
string does not remove a tracked empty-path entry (reachable via a local
filesystem event on the folder root), because the empty-path branch of the
select loop takes precedence over the `Finished` branch.  So "removes that
path's entry regardless of origin" fails for the empty path. -/
theorem c8_cex_empty_path_not_removed :
    lookupKey ((fsStep (⟨1, 0, 2, 10, "", fun _ => some false⟩ : AccConfig)
        (initState ⟨1, 0, 2, 10, "", fun _ => some false⟩ 0) "" 0).inProgress) ""
      = some ⟨true, 0⟩
    ∧ lookupKey ((stStep (⟨1, 0, 2, 10, "", fun _ => some false⟩ : AccConfig)
        (fsStep (⟨1, 0, 2, 10, "", fun _ => some false⟩ : AccConfig)
          (initState ⟨1, 0, 2, 10, "", fun _ => some false⟩ 0) "" 0)
        "" true 5).inProgress) "" = some ⟨true, 0⟩ := by decide

/-- **C8** (amended): for every *nonempty* path, a `finished` remote event
removes the path's entry whatever its origin, leaves the table unchanged
when the path is not tracked, and is idempotent.  (A finished event with
empty path is treated as the generic speed-up signal and removes
nothing.) -/
theorem c8_finished_removal (c : AccConfig) (s : AccState) (p : String)
    (now now2 : Int) (hp : p ≠ "") :
    lookupKey (stStep c s p true now).inProgress p = none
    ∧ (lookupKey s.inProgress p = none →
        (stStep c s p true now).inProgress = s.inProgress)
    ∧ stStep c (stStep c s p true now) p true now2 = stStep c s p true now := by
  refine ⟨?_, ?_, ?_⟩
  · simp [stStep, hp, lookupKey_eraseKey_self]
  · intro hnone
    have hred : (stStep c s p true now).inProgress = eraseKey s.inProgress p := by
      simp [stStep, hp]
    rw [hred]
    exact eraseKey_of_forall_ne ((lookupKey_eq_none_iff _ _).1 hnone)
  · simp [stStep, hp, eraseKey_eraseKey]

/-- **C8** (witness for the amended claim at a concrete input). -/
theorem c8_witness :
    lookupKey (stStep (⟨1, 0, 2, 10, "", fun _ => some false⟩ : AccConfig)
        (⟨[("x", ⟨false, 3⟩)], 1, 9⟩ : AccState) "x" true 5).inProgress "x" = none :=
  (c8_finished_removal _ _ "x" 5 6 (by decide)).1

/-- **C5** (confirmed): when the timer fires with a non-empty table whose
size is at or above `maxFiles`, aggregation is bypassed and the callback
receives the single whole-folder scan target `""`. -/
theorem c5_saturation_fallback (c : AccConfig) (s : AccState) (now : Int) (ok : Bool)
    (hne : s.inProgress ≠ []) (hsat : c.maxFiles ≤ s.inProgress.length) :
    (timerStep c s now ok).mainCall = some [""] := by
  have h1 : ¬ s.inProgress.length < c.maxFiles := by omega
  cases ok <;> simp [timerStep, hne, h1]

/-- **C5** (witness at a concrete saturated state). -/
theorem c5_witness :
    (timerStep (⟨1, 0, 2, 1, "", fun _ => some false⟩ : AccConfig)
      (⟨[("a", ⟨true, 0⟩)], 1, 100⟩ : AccState) 0 false).mainCall = some [""] :=
  c5_saturation_fallback _ _ 0 false (by decide) (by decide)

/-- **C4** (counterexample): with `maxFiles = 1`, two local events starting
from the empty table leave **two** tracked entries: the guard is
`len(inProgress) > maxFiles`, so an insertion still happens when the table
has exactly reached the bound, and the table exceeds `maxFiles`. -/
theorem c4_cex_bound_exceeded :
    (run (⟨1, 0, 2, 1, "", fun _ => some false⟩ : AccConfig) 0
      [.fs "a" 0, .fs "b" 0]).inProgress.length = 2
    ∧ (⟨1, 0, 2, 1, "", fun _ => some false⟩ : AccConfig).maxFiles = 1
    ∧ lookupKey (run (⟨1, 0, 2, 1, "", fun _ => some false⟩ : AccConfig) 0
        [.fs "a" 0, .fs "b" 0]).inProgress "b" = some ⟨true, 0⟩ := by decide

/-- **C4** (amended): every reachable state of the accumulator holds at
most `maxFiles + 1` tracked paths, and an `ItemStarted` or local event
arriving when the table size *strictly exceeds* `maxFiles` does not insert
a new entry (the guard is `len > maxFiles`, so one more insertion is still
allowed at exactly `maxFiles`). -/
theorem c4_bounded_tracking (c : AccConfig) (start : Int) (evs : List AccEvent)
    (s : AccState) (p : String) (now : Int) :
    (run c start evs).inProgress.length ≤ c.maxFiles + 1
    ∧ (c.maxFiles < s.inProgress.length → lookupKey s.inProgress p = none →
        lookupKey (stStep c s p false now).inProgress p = none
        ∧ lookupKey (fsStep c s p now).inProgress p = none) := by
  refine ⟨run_length_le c start evs, fun hlen hnone => ⟨?_, ?_⟩⟩
  · by_cases hp : p = ""
    · simpa [stStep, hp] using hnone
    · simpa [stStep, hp, hlen] using hnone
  · simp only [fsStep]
    have hs1 : ({ s with currInterval := c.debounceTimeout } : AccState).inProgress
        = s.inProgress := rfl
    rw [hs1, hnone]
    simpa [hlen] using hnone

/-- **C4** (witness for the amended claim at a concrete over-full state). -/
theorem c4_witness :
    lookupKey (stStep (⟨1, 0, 2, 1, "", fun _ => some false⟩ : AccConfig)
        (⟨[("a", ⟨true, 0⟩), ("b", ⟨true, 0⟩)], 1, 9⟩ : AccState) "c" false 5).inProgress "c"
      = none
    ∧ lookupKey (fsStep (⟨1, 0, 2, 1, "", fun _ => some false⟩ : AccConfig)
        (⟨[("a", ⟨true, 0⟩), ("b", ⟨true, 0⟩)], 1, 9⟩ : AccState) "c" 5).inProgress "c"
      = none :=
  (c4_bounded_tracking _ 0 [] _ "c" 5).2 (by decide) (by decide)

/-- **C1** (confirmed): a path tracked with remote origin (as inserted by a
remote `ItemStarted` event, given room in the table) that then receives a
local filesystem event is removed and not re-inserted: afterwards the
table holds no entry for the path and no timer tick can collect it into
the candidate batch. -/
theorem c1_self_change_suppression (c : AccConfig) (s : AccState) (p : String)
    (t1 t2 now : Int) (hp : p ≠ "") (hroom : s.inProgress.length ≤ c.maxFiles) :
    (∀ kv ∈ (fsStep c (stStep c s p false t1) p t2).inProgress, kv.1 ≠ p)
    ∧ p ∉ candidatePaths c now (fsStep c (stStep c s p false t1) p t2).inProgress := by
  have hguard : ¬ s.inProgress.length > c.maxFiles := by omega
  have hst : (stStep c s p false t1).inProgress = insertKey s.inProgress p ⟨false, t1⟩ := by
    simp [stStep, hp, hguard]
  have hfs : (fsStep c (stStep c s p false t1) p t2).inProgress
      = eraseKey (insertKey s.inProgress p ⟨false, t1⟩) p := by
    simp only [fsStep, hst]
    rw [lookupKey_insertKey_self]
    simp
  constructor
  · intro kv hkv
    rw [hfs] at hkv
    exact (mem_eraseKey hkv).2
  · intro hcand
    rcases exists_of_mem_candidatePaths hcand with ⟨pr, hpr⟩
    rw [hfs] at hpr
    exact (mem_eraseKey hpr).2 rfl

/-- **C1** (witness at a concrete input). -/
theorem c1_witness :
    (∀ kv ∈ (fsStep (⟨1, 0, 2, 4, "", fun _ => some false⟩ : AccConfig)
        (stStep (⟨1, 0, 2, 4, "", fun _ => some false⟩ : AccConfig)
          (initState ⟨1, 0, 2, 4, "", fun _ => some false⟩ 0) "x" false 1) "x" 2).inProgress,
      kv.1 ≠ "x")
    ∧ "x" ∉ candidatePaths (⟨1, 0, 2, 4, "", fun _ => some false⟩ : AccConfig) 3
        (fsStep (⟨1, 0, 2, 4, "", fun _ => some false⟩ : AccConfig)
          (stStep (⟨1, 0, 2, 4, "", fun _ => some false⟩ : AccConfig)
            (initState ⟨1, 0, 2, 4, "", fun _ => some false⟩ 0) "x" false 1) "x" 2).inProgress :=
  c1_self_change_suppression _ _ "x" 1 2 3 (by decide) (by decide)

/-! ## Claims about the tree aggregator (concrete) -/

/-- **C2** (confirmed): the six-path batch of the deep-rollup example, all
classified as existing files, with threshold 3, aggregates to exactly
`["a/b", "a/e"]` — `a/b/c` is subsumed. -/
theorem c2_deep_rollup_with_outlier :
    aggregateChanges (fun _ => some false) "" 3
      ["a/e", "a/b/d", "a/b/file1.txt", "a/b/file2", "a/b/file3.ogg", "a/b/c/file4"]
      = some ["a/b", "a/e"] := by decide

/-- **C10** (counterexample): the descendant-skip in the selection walk only
compares with the *immediately preceding* accepted key, so the output is
not globally prefix-free: with directories `a`, `a!`, `a/b` (note
`"a!" < "a/b"` in byte order) all three are returned, and `a/b` is a
strict path-descendant of the earlier target `a`. -/
theorem c10_cex_not_prefix_free :
    aggregateChanges (fun _ => some true) "" 3 ["a", "a!", "a/b"]
      = some ["a", "a!", "a/b"]
    ∧ hasPfx "a/b" ("a" ++ pathSeparator) = true
    ∧ ("a/b" : String) ≠ "a" := by decide

theorem mem_keys_of_mem_candidatePaths {c : AccConfig} {now : Int}
    {m : List (String × ProgressTime)} {p : String}
    (h : p ∈ candidatePaths c now m) : p ∈ m.map Prod.fst := by
  rcases exists_of_mem_candidatePaths h with ⟨pr, hpr⟩
  exact List.mem_map_of_mem Prod.fst hpr

theorem lookupKey_cleanup_of_candidate {c : AccConfig} {now : Int}
    {m : List (String × ProgressTime)} {p : String}
    (hnd : (m.map Prod.fst).Nodup) (hp : p ∈ candidatePaths c now m) :
    lookupKey (cleanupInProgress c now m) p = lookupKey m p := by
  induction m with
  | nil => simp [cleanupInProgress]
  | cons kv rest ih =>
    obtain ⟨k, pr⟩ := kv
    have hnd2 : (rest.map Prod.fst).Nodup := (List.nodup_cons.1 hnd).2
    have hknr : k ∉ rest.map Prod.fst := (List.nodup_cons.1 hnd).1
    by_cases hcond : k = "" ∨ pr.time < now - c.debounceTimeout * 10
    · have hp2 : p ∈ candidatePaths c now rest := by simpa [candidatePaths, hcond] using hp
      have hpk : p ≠ k := fun he => hknr (he ▸ mem_keys_of_mem_candidatePaths hp2)
      have hkp : ¬ k = p := fun he => hpk he.symm
      simp only [cleanupInProgress, if_pos hcond, lookupKey, if_neg hkp]
      exact ih hnd2 hp2
    · by_cases hpe : k = p
      · subst hpe
        simp [cleanupInProgress, hcond, lookupKey]
      · have hp2 : p ∈ candidatePaths c now rest := by
          by_cases hfs : pr.fsEvent
          · rcases (by simpa [candidatePaths, hcond, hfs] using hp :
              p = k ∨ p ∈ candidatePaths c now rest) with he | hm
            · exact absurd he.symm hpe
            · exact hm
          · simpa [candidatePaths, hcond, hfs] using hp
        simp only [cleanupInProgress, if_neg hcond, lookupKey, if_neg hpe]
        exact ih hnd2 hp2

theorem dropped_by_cleanup {c : AccConfig} {now : Int}
    {m : List (String × ProgressTime)} {p : String} {pr : ProgressTime}
    (hmem : (p, pr) ∈ m) (hout : (p, pr) ∉ cleanupInProgress c now m) :
    p = "" ∨ pr.time < now - c.debounceTimeout * 10 := by
  induction m with
  | nil => simp at hmem
  | cons kv rest ih =>
    obtain ⟨k, q⟩ := kv
    by_cases hcond : k = "" ∨ q.time < now - c.debounceTimeout * 10
    · rcases List.mem_cons.1 hmem with he | hm
      · obtain ⟨rfl, rfl⟩ := Prod.mk.injEq .. ▸ (Prod.ext_iff.1 he)
        exact hcond
      · exact ih hm (by simpa [cleanupInProgress, hcond] using hout)
    · rcases List.mem_cons.1 hmem with he | hm
      · exfalso
        apply hout
        rw [he]
        simp [cleanupInProgress, hcond]
      · refine ih hm (fun hin => hout ?_)
        simp [cleanupInProgress, hcond, hin]

theorem lookupKey_removePaths_of_none {m : List (String × ProgressTime)}
    {ps : List String} {p : String} (h : lookupKey m p = none) :
    lookupKey (removePaths m ps) p = none := by
  induction ps generalizing m with
  | nil => exact h
  | cons q qs ih =>
    show lookupKey (removePaths (eraseKey m q) qs) p = none
    apply ih
    by_cases hq : p = q
    · subst hq; exact lookupKey_eraseKey_self m p
    · rw [lookupKey_eraseKey_ne m hq]; exact h

theorem lookupKey_removePaths_of_mem {m : List (String × ProgressTime)}
    {ps : List String} {p : String} (h : p ∈ ps) :
    lookupKey (removePaths m ps) p = none := by
  induction ps generalizing m with
  | nil => simp at h
  | cons q qs ih =>
    show lookupKey (removePaths (eraseKey m q) qs) p = none
    by_cases hq : p = q
    · subst hq
      exact lookupKey_removePaths_of_none (lookupKey_eraseKey_self m p)
    · exact ih (by rcases List.mem_cons.1 h with he | hm; exact absurd he hq; exact hm)

/-- **C7** (counterexample): when the Notifier call fails, the tracking
table is *not* always left unchanged — entries that were invalid or
expired were already deleted during candidate collection.  Here `old`
(timestamp 0, expired at `now = 100` with debounce 1) disappears although
the callback returned failure. -/
theorem c7_cex_failure_still_drops_expired :
    (timerStep (⟨1, 0, 2, 10, "", fun _ => some false⟩ : AccConfig)
        (⟨[("old", ⟨true, 0⟩), ("fresh", ⟨true, 100⟩)], 1, 1000⟩ : AccState)
        100 false).mainCall = some ["fresh"]
    ∧ (timerStep (⟨1, 0, 2, 10, "", fun _ => some false⟩ : AccConfig)
        (⟨[("old", ⟨true, 0⟩), ("fresh", ⟨true, 100⟩)], 1, 1000⟩ : AccState)
        100 false).state.inProgress = [("fresh", ⟨true, 100⟩)]
    ∧ ([("fresh", (⟨true, 100⟩ : ProgressTime))]
        ≠ [("old", ⟨true, 0⟩), ("fresh", ⟨true, 100⟩)]) := by decide

/-- **C7** (amended): on a timer tick with a non-empty, unsaturated table
and a non-empty candidate batch (keys distinct, as the table is a map): if
the Notifier fails, every candidate entry keeps its exact table entry (so
the same batch is retried) and the only entries removed are the invalid
(empty-path) or expired ones; if it succeeds, exactly the candidate paths
are removed and the reminder deadline becomes `now + delayScanInterval`. -/
theorem c7_failure_keeps_batch (c : AccConfig) (s : AccState) (now : Int) (ok : Bool)
    (hne : s.inProgress ≠ []) (hlt : s.inProgress.length < c.maxFiles)
    (hcand : candidatePaths c now s.inProgress ≠ [])
    (hnd : (s.inProgress.map Prod.fst).Nodup) :
    (ok = false →
      (∀ p ∈ candidatePaths c now s.inProgress,
        lookupKey (timerStep c s now ok).state.inProgress p = lookupKey s.inProgress p)
      ∧ ∀ p pr, (p, pr) ∈ s.inProgress →
          (p, pr) ∉ (timerStep c s now ok).state.inProgress →
          p = "" ∨ pr.time < now - c.debounceTimeout * 10)
    ∧ (ok = true →
      (∀ p ∈ candidatePaths c now s.inProgress,
        lookupKey (timerStep c s now ok).state.inProgress p = none)
      ∧ (timerStep c s now ok).state.nextScanTime = now + delayScanInterval c) := by
  constructor
  · rintro rfl
    have hred : (timerStep c s now false).state.inProgress
        = cleanupInProgress c now s.inProgress := by
      simp [timerStep, hne, hlt, hcand]
    constructor
    · intro p hp
      rw [hred]
      exact lookupKey_cleanup_of_candidate hnd hp
    · intro p pr hmem hout
      rw [hred] at hout
      exact dropped_by_cleanup hmem hout
  · rintro rfl
    have hred : (timerStep c s now true).state.inProgress
        = removePaths (cleanupInProgress c now s.inProgress)
            (candidatePaths c now s.inProgress) := by
      simp [timerStep, hne, hlt, hcand]
    refine ⟨fun p hp => ?_, ?_⟩
    · rw [hred]
      exact lookupKey_removePaths_of_mem hp
    · simp [timerStep, hne, hlt, hcand]

/-- **C7** (witness for the amended claim at a concrete input). -/
theorem c7_witness :
    lookupKey (timerStep (⟨1, 0, 2, 5, "", fun _ => some false⟩ : AccConfig)
        (⟨[("x", ⟨true, 50⟩)], 1, 1000⟩ : AccState) 50 true).state.inProgress "x" = none
    ∧ (timerStep (⟨1, 0, 2, 5, "", fun _ => some false⟩ : AccConfig)
        (⟨[("x", ⟨true, 50⟩)], 1, 1000⟩ : AccState) 50 true).state.nextScanTime
      = 50 + delayScanInterval ⟨1, 0, 2, 5, "", fun _ => some false⟩ := by
  have h := (c7_failure_keeps_batch (⟨1, 0, 2, 5, "", fun _ => some false⟩ : AccConfig)
    (⟨[("x", ⟨true, 50⟩)], 1, 1000⟩ : AccState) 50 true
    (by decide) (by decide) (by decide) (by decide)).2 rfl
  exact ⟨h.1 "x" (by decide), h.2⟩

/-! ## Supporting lemmas: the ignore matcher -/

theorem string_eq_empty_iff (s : String) : s = "" ↔ s.data = [] := by
  constructor
  · intro h
    rw [h]
  · intro h
    obtain ⟨l⟩ := s
    have h2 : l = [] := h
    rw [h2]

theorem matchesNoException_iff (all : List Pattern) (path : String)
    (pats : List Pattern) :
    matchesNoException all path pats = true ↔
      ((∃ q ∈ pats, q.isInclude = true ∧ q.matchP path = true)
        ∧ ¬ ∃ q ∈ all, q.isInclude = false ∧ q.matchP path = true) := by
  induction pats with
  | nil => simp [matchesNoException]
  | cons p1 rest ih =>
    by_cases hc : (p1.isInclude && p1.matchP path) = true
    · by_cases hex : (all.any (fun p2 => !p2.isInclude && p2.matchP path)) = true
      · have hexP : ∃ q ∈ all, q.isInclude = false ∧ q.matchP path = true := by
          simpa [List.any_eq_true, Bool.and_eq_true, Bool.not_eq_true'] using hex
        simp only [matchesNoException, if_pos hc, if_pos hex, ih]
        constructor
        · rintro ⟨_, hno⟩
          exact absurd hexP hno
        · rintro ⟨_, hno⟩
          exact absurd hexP hno
      · have hnoP : ¬ ∃ q ∈ all, q.isInclude = false ∧ q.matchP path = true := by
          simpa [List.any_eq_true, Bool.and_eq_true, Bool.not_eq_true'] using hex
        have hp1 : p1.isInclude = true ∧ p1.matchP path = true := by
          simpa [Bool.and_eq_true] using hc
        simp only [matchesNoException, if_pos hc, if_neg hex]
        constructor
        · intro _
          exact ⟨⟨p1, List.mem_cons_self _ _, hp1⟩, hnoP⟩
        · intro _
          trivial
    · have hp1 : ¬ (p1.isInclude = true ∧ p1.matchP path = true) := by
        simpa [Bool.and_eq_true] using hc
      simp only [matchesNoException, if_neg hc, ih]
      constructor
      · rintro ⟨⟨q, hq, hq2⟩, hno⟩
        exact ⟨⟨q, List.mem_cons_of_mem _ hq, hq2⟩, hno⟩
      · rintro ⟨⟨q, hq, hq2⟩, hno⟩
        rcases List.mem_cons.1 hq with he | hq3
        · exact absurd (he ▸ hq2) hp1
        · exact ⟨⟨q, hq3, hq2⟩, hno⟩

/-- **C6** (confirmed): `shouldIgnore` never ignores the empty path,
ignores any nonempty path containing a literal ignore-prefix as a
substring, and otherwise ignores a path iff some include-pattern matches
it and no exclude-pattern matches it (a matching exclude always keeps the
path). -/
theorem c6_should_ignore (ips : List String) (pats : List Pattern) (path : String) :
    shouldIgnore ips pats "" = false
    ∧ (path ≠ "" → (∃ ip ∈ ips, containsStr path ip = true) →
        shouldIgnore ips pats path = true)
    ∧ ((∀ ip ∈ ips, containsStr path ip = false) →
        (shouldIgnore ips pats path = true ↔
          path ≠ "" ∧ (∃ q ∈ pats, q.isInclude = true ∧ q.matchP path = true)
            ∧ ¬ ∃ q ∈ pats, q.isInclude = false ∧ q.matchP path = true)) := by
  refine ⟨?_, ?_, ?_⟩
  · simp [shouldIgnore, show ("" : String).length = 0 from rfl]
  · intro hne hex
    have hlen : ¬ path.length = 0 := by
      intro h0
      exact hne ((string_eq_empty_iff path).2 (List.length_eq_zero.1 h0))
    have hany : (ips.any (fun ignorePath => containsStr path ignorePath)) = true := by
      rcases hex with ⟨ip, hip, hc⟩
      exact List.any_eq_true.2 ⟨ip, hip, hc⟩
    simp [shouldIgnore, hlen, hany]
  · intro hall
    have hany : ¬ (ips.any (fun ignorePath => containsStr path ignorePath)) = true := by
      intro h
      rcases List.any_eq_true.1 h with ⟨ip, hip, hc⟩
      rw [hall ip hip] at hc
      exact Bool.false_ne_true hc
    by_cases hne : path = ""
    · subst hne
      simp [shouldIgnore, show ("" : String).length = 0 from rfl]
    · have hlen : ¬ path.length = 0 := by
        intro h0
        exact hne ((string_eq_empty_iff path).2 (List.length_eq_zero.1 h0))
      simp only [shouldIgnore, if_neg hlen, if_neg hany]
      rw [matchesNoException_iff]
      constructor
      · rintro ⟨h1, h2⟩
        exact ⟨hne, h1, h2⟩
      · rintro ⟨_, h1, h2⟩
        exact ⟨h1, h2⟩

/-- **C6** (witness at concrete patterns: an include-regex match with no
matching exclusion is ignored; with the exclusion it is kept; the literal
prefix ignores; the empty path is kept). -/
theorem c6_witness :
    shouldIgnore ["tmp"] [⟨fun s => containsStr s ".o", true⟩] "x.o" = true
    ∧ shouldIgnore ["tmp"]
        [⟨fun s => containsStr s ".o", true⟩, ⟨fun s => s = "x.o", false⟩] "x.o" = false
    ∧ shouldIgnore ["tmp"] [] "a/tmp/b" = true := by
  refine ⟨?_, ?_, ?_⟩
  · exact ((c6_should_ignore ["tmp"] [⟨fun s => containsStr s ".o", true⟩] "x.o").2.2
      (by decide)).2 (by decide)
  · have h := ((c6_should_ignore ["tmp"]
        [⟨fun s => containsStr s ".o", true⟩, ⟨fun s => s = "x.o", false⟩] "x.o").2.2
      (by decide))
    by_cases hb : shouldIgnore ["tmp"]
        [⟨fun s => containsStr s ".o", true⟩, ⟨fun s => s = "x.o", false⟩] "x.o" = true
    · exfalso
      rcases h.1 hb with ⟨_, _, hno⟩
      exact hno ⟨⟨fun s => s = "x.o", false⟩, List.Mem.tail _ (List.Mem.head _), by decide⟩
    · simpa using hb
  · exact (c6_should_ignore ["tmp"] [] "a/tmp/b").2.1 (by decide) (by decide)

/-! ## Supporting lemmas: the selection walk -/

theorem selectScans_chain (tp : List (String × Int)) (d : Int) (l : List String) :
    ∀ prev : String,
      List.Chain' (fun a b => hasPfx b (a ++ pathSeparator) = false)
        (selectScans tp d l prev)
      ∧ ∀ h ∈ (selectScans tp d l prev).head?,
          hasPfx h (prev ++ pathSeparator) = false := by
  induction l with
  | nil =>
    intro prev
    simp [selectScans]
  | cons k rest ih =>
    intro prev
    by_cases h1 : hasPfx k (prev ++ pathSeparator) = true
    · simpa [selectScans, h1] using ih prev
    · have h1f : hasPfx k (prev ++ pathSeparator) = false := by
        cases hb : hasPfx k (prev ++ pathSeparator)
        · rfl
        · exact absurd hb h1
      by_cases h2 : ((lookupKey tp k).getD 0 < d ∧ (lookupKey tp k).getD 0 ≠ -1)
      · simpa [selectScans, h1f, h2] using ih prev
      · by_cases h3 : k = ""
        · subst h3
          simp only [selectScans, h1f]
          simp [h2, h1f]
        · have hsel : selectScans tp d (k :: rest) prev = k :: selectScans tp d rest k := by
            simp [selectScans, h1f, h2, h3]
          rw [hsel]
          refine ⟨List.chain'_cons'.2 ⟨(ih k).2, (ih k).1⟩, ?_⟩
          intro h hh
          simp only [List.head?_cons, Option.mem_def, Option.some.injEq] at hh
          rw [← hh]
          exact h1f

/-- **C10** (amended): every scan-target list returned by aggregation is
*consecutively* prefix-free: no returned target is a strict
path-descendant of the immediately preceding returned target.  (Global
prefix-freeness fails, see the counterexample: the walk only compares each
key with the most recently accepted one.) -/
theorem c10_consecutive_descendants_skipped (stat : String → Option Bool)
    (folderPath : String) (dirVsFiles : Int) (paths scans : List String)
    (h : aggregateChanges stat folderPath dirVsFiles paths = some scans) :
    List.Chain' (fun a b => hasPfx b (a ++ pathSeparator) = false) scans := by
  by_cases hp : paths = []
  · simp [aggregateChanges, hp] at h
  · simp only [aggregateChanges, if_neg hp, Option.some.injEq] at h
    rw [← h]
    exact (selectScans_chain _ _ _ _).1

/-- **C10** (witness: consecutive prefix-freeness at a concrete batch). -/
theorem c10_witness :
    List.Chain' (fun a b => hasPfx b (a ++ pathSeparator) = false)
      ["a", "a!", "a/b"] :=
  c10_consecutive_descendants_skipped (fun _ => some true) "" 3 ["a", "a!", "a/b"]
    ["a", "a!", "a/b"] (by decide)

/-! ## Supporting lemmas: strings, cleaning and ordering, towards the
density-threshold claim -/

theorem data_append (a b : String) : (a ++ b).data = a.data ++ b.data := rfl

theorem string_mk_data (s : String) : (⟨s.data⟩ : String) = s := rfl

theorem str_ne_of_data_ne {a b : String} (h : a.data ≠ b.data) : a ≠ b :=
  fun he => h (congrArg String.data he)

theorem aFile_data (nm : String) : ("a/" ++ nm).data = 'a' :: '/' :: nm.data := rfl

theorem takeWhile_of_all {α : Type} {p : α → Bool} {l : List α}
    (h : ∀ x ∈ l, p x = true) : l.takeWhile p = l := by
  induction l with
  | nil => rfl
  | cons x xs ih =>
    rw [List.takeWhile_cons, if_pos (h x (List.mem_cons_self _ _))]
    rw [ih (fun y hy => h y (List.mem_cons_of_mem _ hy))]

theorem dropWhile_of_all {α : Type} {p : α → Bool} {l : List α}
    (h : ∀ x ∈ l, p x = true) : l.dropWhile p = [] := by
  induction l with
  | nil => rfl
  | cons x xs ih =>
    rw [List.dropWhile_cons, if_pos (h x (List.mem_cons_self _ _))]
    exact ih (fun y hy => h y (List.mem_cons_of_mem _ hy))

theorem dropWhile_append_of_all {α : Type} {p : α → Bool} {l1 l2 : List α}
    (h : ∀ x ∈ l1, p x = true) :
    (l1 ++ l2).dropWhile p = l2.dropWhile p := by
  induction l1 with
  | nil => rfl
  | cons x xs ih =>
    rw [List.cons_append, List.dropWhile_cons, if_pos (h x (List.mem_cons_self _ _))]
    exact ih (fun y hy => h y (List.mem_cons_of_mem _ hy))

theorem map_id_of_all {α : Type} {g : α → α} {l : List α}
    (h : ∀ x ∈ l, g x = x) : l.map g = l := by
  induction l with
  | nil => rfl
  | cons x xs ih =>
    rw [List.map_cons, h x (List.mem_cons_self _ _),
      ih (fun y hy => h y (List.mem_cons_of_mem _ hy))]

theorem cleanLoop_nil (rooted : Bool) (fuel : Nat) (out : Chars) (dotdot : Nat) :
    cleanLoop rooted fuel [] out dotdot = out := by
  cases fuel <;> rfl

theorem cleanLoop_slash (rooted : Bool) (fuel : Nat) (rest out : Chars) (dotdot : Nat) :
    cleanLoop rooted (fuel + 1) ('/' :: rest) out dotdot
      = cleanLoop rooted fuel rest out dotdot := by
  simp [cleanLoop]

theorem cleanLoop_elem {c : Char} (rooted : Bool) (fuel : Nat) (rest out : Chars)
    (dotdot : Nat) (hc : c ≠ '/')
    (hc2 : ¬ (c = '.' ∧ (rest = [] ∨ rest.headD ' ' = '/')))
    (hc3 : ¬ (c = '.' ∧ rest.headD ' ' = '.'
        ∧ (rest.tail = [] ∨ rest.tail.headD ' ' = '/'))) :
    cleanLoop rooted (fuel + 1) (c :: rest) out dotdot
      = cleanLoop rooted fuel (rest.dropWhile (fun ch => ch ≠ '/'))
          ((if (if rooted then out.length ≠ 1 else out.length ≠ 0) then out ++ ['/'] else out)
            ++ (c :: rest.takeWhile (fun ch => ch ≠ '/'))) dotdot := by
  simp only [cleanLoop, if_neg hc, if_neg hc2, if_neg hc3]

theorem cleanChars_file {nm : Chars} (hne : nm ≠ []) (hs : ∀ ch ∈ nm, ch ≠ '/')
    (hd1 : nm ≠ ['.']) (hd2 : nm ≠ ['.', '.']) :
    cleanChars ('a' :: '/' :: nm) = 'a' :: '/' :: nm := by
  obtain ⟨x, nm2, rfl⟩ : ∃ x t, nm = x :: t := by
    cases nm with
    | nil => exact absurd rfl hne
    | cons x t => exact ⟨x, t, rfl⟩
  have hx : x ≠ '/' := hs x (List.mem_cons_self _ _)
  have hall : ∀ ch ∈ nm2, ch ≠ '/' := fun ch hch => hs ch (List.mem_cons_of_mem _ hch)
  have hc2 : ¬ (x = '.' ∧ (nm2 = [] ∨ nm2.headD ' ' = '/')) := by
    rintro ⟨rfl, h | h⟩
    · exact hd1 (by rw [h])
    · cases nm2 with
      | nil => simp at h
      | cons y t =>
        simp only [List.headD_cons] at h
        exact hall y (List.mem_cons_self _ _) h
  have hc3 : ¬ (x = '.' ∧ nm2.headD ' ' = '.'
      ∧ (nm2.tail = [] ∨ nm2.tail.headD ' ' = '/')) := by
    rintro ⟨rfl, hh, h | h⟩
    · cases nm2 with
      | nil => simp at hh
      | cons y t =>
        simp only [List.headD_cons] at hh
        simp only [List.tail_cons] at h
        exact hd2 (by rw [hh, h])
    · cases nm2 with
      | nil => simp at hh
      | cons y t =>
        simp only [List.tail_cons] at h
        cases t with
        | nil => simp at h
        | cons z u =>
          simp only [List.headD_cons] at h
          exact hall z (List.mem_cons_of_mem _ (List.mem_cons_self _ _)) h
  have htw : nm2.takeWhile (fun ch => ch ≠ '/') = nm2 :=
    takeWhile_of_all (fun ch hch => by simpa using hall ch hch)
  have hdw : nm2.dropWhile (fun ch => ch ≠ '/') = [] :=
    dropWhile_of_all (fun ch hch => by simpa using hall ch hch)
  show cleanChars ('a' :: '/' :: x :: nm2) = 'a' :: '/' :: x :: nm2
  have step0 : cleanChars ('a' :: '/' :: x :: nm2)
      = (if cleanLoop false (nm2.length + 1 + 1 + 1) ('a' :: '/' :: x :: nm2) [] 0 = []
          then ['.']
          else cleanLoop false (nm2.length + 1 + 1 + 1) ('a' :: '/' :: x :: nm2) [] 0) := by
    simp [cleanChars]
  have step1 : cleanLoop false (nm2.length + 1 + 1 + 1) ('a' :: '/' :: x :: nm2) [] 0
      = cleanLoop false (nm2.length + 1 + 1) ('/' :: x :: nm2) ['a'] 0 := by
    rw [cleanLoop_elem false (nm2.length + 1 + 1) ('/' :: x :: nm2) [] 0
      (by decide) (fun h => absurd h.1 (by decide)) (fun h => absurd h.1 (by decide))]
    simp
  have step2 : cleanLoop false (nm2.length + 1 + 1) ('/' :: x :: nm2) ['a'] 0
      = cleanLoop false (nm2.length + 1) (x :: nm2) ['a'] 0 :=
    cleanLoop_slash false (nm2.length + 1) (x :: nm2) ['a'] 0
  have step3 : cleanLoop false (nm2.length + 1) (x :: nm2) ['a'] 0
      = 'a' :: '/' :: x :: nm2 := by
    rw [cleanLoop_elem false nm2.length nm2 ['a'] 0 hx hc2 hc3, htw, hdw, cleanLoop_nil]
    simp
  rw [step0, step1, step2, step3]
  simp

theorem cleanStr_file {nm : String} (h : goodName nm) :
    cleanStr ("a/" ++ nm) = "a/" ++ nm := by
  obtain ⟨h1, h2, h3, h4⟩ := h
  have hne : nm.data ≠ [] := fun hd => h1 ((string_eq_empty_iff nm).2 hd)
  have hd1 : nm.data ≠ ['.'] := fun hd => h3 (by
    have : nm = ⟨['.']⟩ := by rw [← string_mk_data nm, hd]
    exact this)
  have hd2 : nm.data ≠ ['.', '.'] := fun hd => h4 (by
    have : nm = ⟨['.', '.']⟩ := by rw [← string_mk_data nm, hd]
    exact this)
  show (⟨cleanChars ("a/" ++ nm).data⟩ : String) = "a/" ++ nm
  rw [aFile_data, cleanChars_file hne h2 hd1 hd2]
  rfl

theorem dirStr_file {nm : String} (h : goodName nm) :
    dirStr ("a/" ++ nm) = "a" := by
  obtain ⟨_, h2, _, _⟩ := h
  show (⟨cleanChars ((("a/" ++ nm).data.reverse.dropWhile (fun ch => ch ≠ '/')).reverse)⟩ :
      String) = "a"
  rw [aFile_data]
  have hrev : ('a' :: '/' :: nm.data).reverse = nm.data.reverse ++ ['/', 'a'] := by
    simp
  rw [hrev, dropWhile_append_of_all (fun ch hch => by
    simpa using h2 ch (List.mem_reverse.1 hch))]
  rfl

theorem lexLt_cons_same (c : Char) (l1 l2 : Chars) :
    lexLt (c :: l1) (c :: l2) = lexLt l1 l2 := by
  simp [lexLt]

theorem lexLt_irrefl (l : Chars) : lexLt l l = false := by
  induction l with
  | nil => rfl
  | cons c rest ih => rw [lexLt_cons_same, ih]

theorem ne_of_strLt {a b : String} (h : strLt a b = true) : a ≠ b := by
  intro he
  rw [he, strLt, lexLt_irrefl] at h
  exact Bool.false_ne_true h

theorem strLt_file_iff (x y : String) :
    strLt ("a/" ++ x) ("a/" ++ y) = strLt x y := by
  show lexLt ("a/" ++ x).data ("a/" ++ y).data = lexLt x.data y.data
  rw [aFile_data, aFile_data, lexLt_cons_same, lexLt_cons_same]

theorem strLt_a_file (nm : String) : strLt "a" ("a/" ++ nm) = true := by
  show lexLt ['a'] ('a' :: '/' :: nm.data) = true
  rw [show lexLt ['a'] ('a' :: '/' :: nm.data)
      = lexLt [] ('/' :: nm.data) from by simp [lexLt]]
  rfl

theorem strLt_file_a (nm : String) : strLt ("a/" ++ nm) "a" = false := by
  show lexLt ('a' :: '/' :: nm.data) ['a'] = false
  rw [show lexLt ('a' :: '/' :: nm.data) ['a']
      = lexLt ('/' :: nm.data) [] from by simp [lexLt]]
  rfl

theorem strLe_of_strLt {a b : String} (h : strLt a b = true) : strLe a b = true := by
  simp [strLe, h]

theorem file_ne_a (nm : String) : ("a/" ++ nm) ≠ "a" :=
  str_ne_of_data_ne (by rw [aFile_data]; simp [show ("a" : String).data = ['a'] from rfl])

theorem file_ne_empty (nm : String) : ("a/" ++ nm) ≠ "" :=
  str_ne_of_data_ne (by rw [aFile_data]; simp [show ("" : String).data = [] from rfl])

theorem file_ne_dot (nm : String) : ("a/" ++ nm) ≠ "." :=
  str_ne_of_data_ne (by rw [aFile_data]; simp [show ("." : String).data = ['.'] from rfl])

theorem strLe_file_a_false (nm : String) : strLe ("a/" ++ nm) "a" = false := by
  simp [strLe, strLt_file_a, file_ne_a]

theorem sortStrings_cons (x : String) (l : List String) :
    sortStrings (x :: l) = insertSorted x (sortStrings l) := rfl

theorem sortStrings_sorted_id {l : List String}
    (h : List.Chain' (fun a b => strLe a b = true) l) : sortStrings l = l := by
  induction l with
  | nil => rfl
  | cons x xs ih =>
    rw [sortStrings_cons]
    cases xs with
    | nil => rfl
    | cons y ys =>
      have hxy : strLe x y = true := (List.chain'_cons.1 h).1
      rw [ih (List.chain'_cons.1 h).2]
      simp [insertSorted, hxy]

theorem chain_le_of_pairwise_lt {l : List String}
    (h : List.Pairwise (fun a b => strLt a b = true) l) :
    List.Chain' (fun a b => strLe a b = true) l :=
  (List.Pairwise.chain' h).imp (fun _ _ hab => strLe_of_strLt hab)

theorem pfxOf_cons_same (c : Char) (l1 l2 : Chars) :
    pfxOf (c :: l1) (c :: l2) = pfxOf l1 l2 := by
  simp [pfxOf]

theorem mem_of_pfxOf {l1 l2 : Chars} (h : pfxOf l1 l2 = true) :
    ∀ a ∈ l1, a ∈ l2 := by
  induction l1 generalizing l2 with
  | nil => simp
  | cons c cs ih =>
    cases l2 with
    | nil => simp [pfxOf] at h
    | cons b bs =>
      by_cases hcb : c = b
      · subst hcb
        rw [pfxOf_cons_same] at h
        intro a ha
        rcases List.mem_cons.1 ha with rfl | ha2
        · exact List.mem_cons_self _ _
        · exact List.mem_cons_of_mem _ (ih h a ha2)
      · simp [pfxOf, hcb] at h

theorem hasPfx_a_under_a_false : hasPfx "a" ("a" ++ pathSeparator) = false := by decide

theorem hasPfx_file_under_a (nm : String) :
    hasPfx ("a/" ++ nm) ("a" ++ pathSeparator) = true := by
  show pfxOf ("a" ++ pathSeparator).data ("a/" ++ nm).data = true
  rw [aFile_data, show ("a" ++ pathSeparator).data = ['a', '/'] from rfl,
    pfxOf_cons_same, pfxOf_cons_same]
  rfl

theorem hasPfx_file_under_empty_false (nm : String) :
    hasPfx ("a/" ++ nm) ("" ++ pathSeparator) = false := by
  show pfxOf ("" ++ pathSeparator).data ("a/" ++ nm).data = false
  rw [aFile_data, show ("" ++ pathSeparator).data = ['/'] from rfl]
  simp [pfxOf]

theorem hasPfx_file_under_file_false {x : String} (pm : String)
    (hx : ∀ ch ∈ x.data, ch ≠ '/') :
    hasPfx ("a/" ++ x) (("a/" ++ pm) ++ pathSeparator) = false := by
  show pfxOf (("a/" ++ pm) ++ pathSeparator).data ("a/" ++ x).data = false
  have hdata : (("a/" ++ pm) ++ pathSeparator).data = 'a' :: '/' :: (pm.data ++ ['/']) := by
    rw [data_append, aFile_data]
    rfl
  rw [hdata, aFile_data, pfxOf_cons_same, pfxOf_cons_same]
  cases hb : pfxOf (pm.data ++ ['/']) x.data
  · rfl
  · exact absurd (mem_of_pfxOf hb '/' (List.mem_append_right _ (List.mem_cons_self _ _)))
      (by simpa using hx '/')

theorem trimPfx_empty (s : String) : trimPfx s "" = s := by
  show (if pfxOf ("" : String).data s.data then (⟨s.data.drop ("" : String).data.length⟩ : String)
    else s) = s
  rw [show ("" : String).data = [] from rfl]
  simp [pfxOf, string_mk_data]

theorem trimPfx_slash_file (nm : String) : trimPfx ("a/" ++ nm) pathSeparator = "a/" ++ nm := by
  show (if pfxOf (pathSeparator : String).data ("a/" ++ nm).data then _ else ("a/" ++ nm)) = _
  rw [show (pathSeparator : String).data = ['/'] from rfl, aFile_data]
  simp [pfxOf]

theorem insertKey_append_of_all_ne {A : Type} {m : List (String × A)} {k : String}
    (v : A) (h : ∀ kv ∈ m, kv.1 ≠ k) : insertKey m k v = m ++ [(k, v)] := by
  induction m with
  | nil => rfl
  | cons kv rest ih =>
    obtain ⟨k1, v1⟩ := kv
    have h1 : ¬ (k1 = k) := h (k1, v1) (List.mem_cons_self _ _)
    simp only [insertKey, if_neg h1, List.cons_append]
    rw [ih (fun kv2 hkv2 => h kv2 (List.mem_cons_of_mem _ hkv2))]

theorem lookupKey_map_const {l : List String} {f : String} (v : Int) (h : f ∈ l) :
    lookupKey (l.map (fun q => (q, v))) f = some v := by
  induction l with
  | nil => simp at h
  | cons q rest ih =>
    by_cases hq : q = f
    · simp [lookupKey, hq]
    · rcases List.mem_cons.1 h with he | hm
      · exact absurd he.symm hq
      · simp only [List.map_cons, lookupKey, if_neg hq]
        exact ih hm

/-- One `aggregateChanges` scoring step on a fresh file `a/<nm>` processed
after the first file `f0` and the files in `done`: the file is appended
with score `-1` and the score of the shared parent `a` increments. -/
theorem aggStep_file (d j : Int) (f0 r : String) (done : List String) (prev : String)
    (hr : ∃ nm, r = "a/" ++ nm ∧ goodName nm)
    (hf0 : ∃ nm, f0 = "a/" ++ nm ∧ goodName nm)
    (hdone : ∀ q ∈ done, ∃ nm, q = "a/" ++ nm ∧ goodName nm)
    (hrf0 : r ≠ f0) (hrdone : r ∉ done)
    (hprev : prev = f0 ∨ prev ∈ done) :
    aggStep (fun _ => some false) "" d
      ⟨(f0, -1) :: ("a", j) :: done.map (fun q => (q, -1)), ["a"], prev⟩ r
      = ⟨(f0, -1) :: ("a", j + 1) :: (done ++ [r]).map (fun q => (q, -1)), ["a"], r⟩ := by
  obtain ⟨nm, rfl, hg⟩ := hr
  obtain ⟨nm0, hf0e, hg0⟩ := hf0
  have hclean : cleanStr ("a/" ++ nm) = "a/" ++ nm := cleanStr_file hg
  have hdot : ¬ ("a/" ++ nm = ".") := file_ne_dot nm
  have hprev2 : ¬ ("a/" ++ nm = prev) := by
    rcases hprev with rfl | hmem
    · exact hrf0
    · exact fun h => hrdone (by rw [h]; exact hmem)
  have htrim : trimPfx (trimPfx ("a/" ++ nm) "") pathSeparator = "a/" ++ nm := by
    rw [trimPfx_empty, trimPfx_slash_file]
  have hdir : dirStr ("a/" ++ nm) = "a" := dirStr_file hg
  have hf0a : ¬ (f0 = "a") := by rw [hf0e]; exact file_ne_a nm0
  have hkeys : ∀ kv ∈ ((f0, (-1 : Int)) :: ("a", j) :: done.map (fun q => (q, -1))),
      kv.1 ≠ "a/" ++ nm := by
    intro kv hkv
    rcases List.mem_cons.1 hkv with rfl | hkv2
    · exact fun he => hrf0 (he.symm)
    · rcases List.mem_cons.1 hkv2 with rfl | hkv3
      · exact fun he => file_ne_a nm (he.symm)
      · rcases List.mem_map.1 hkv3 with ⟨q, hq, rfl⟩
        exact fun he => hrdone (by rw [← he]; exact hq)
  have hins1 : insertKey ((f0, (-1 : Int)) :: ("a", j) :: done.map (fun q => (q, -1)))
      ("a/" ++ nm) (-1)
      = (f0, -1) :: ("a", j) :: (done.map (fun q => (q, -1)) ++ [("a/" ++ nm, -1)]) := by
    rw [insertKey_append_of_all_ne (-1) hkeys]
    simp
  have hlook : lookupKey ((f0, (-1 : Int)) :: ("a", j)
      :: (done.map (fun q => (q, -1)) ++ [("a/" ++ nm, -1)])) "a" = some j := by
    simp [lookupKey, hf0a]
  have hins2 : insertKey ((f0, (-1 : Int)) :: ("a", j)
      :: (done.map (fun q => (q, -1)) ++ [("a/" ++ nm, -1)])) "a" (j + 1)
      = (f0, -1) :: ("a", j + 1) :: (done.map (fun q => (q, -1)) ++ [("a/" ++ nm, -1)]) := by
    simp [insertKey, hf0a]
  have hbump : bumpAncestors "a" ["a"] ((f0, (-1 : Int)) :: ("a", j + 1)
      :: (done.map (fun q => (q, -1)) ++ [("a/" ++ nm, -1)]))
      = (f0, -1) :: ("a", j + 1) :: (done.map (fun q => (q, -1)) ++ [("a/" ++ nm, -1)]) := by
    apply map_id_of_all
    intro kv hkv
    rcases List.mem_cons.1 hkv with rfl | hkv2
    · simp [List.mem_singleton, hf0a]
    · rcases List.mem_cons.1 hkv2 with rfl | hkv3
      · simp [hasPfx_a_under_a_false]
      · rcases List.mem_append.1 hkv3 with hkv4 | hkv5
        · rcases List.mem_map.1 hkv4 with ⟨q, hq, rfl⟩
          obtain ⟨nmq, rfl, _⟩ := hdone q hq
          simp [List.mem_singleton, file_ne_a nmq]
        · rcases List.mem_singleton.1 hkv5 with rfl
          simp [List.mem_singleton, file_ne_a nm]
  have haddDir : addDir ["a"] "a" = ["a"] := by simp [addDir]
  simp only [aggStep, hclean, if_neg hdot, if_neg hprev2, htrim, hdir]
  rw [show (if ("a" : String) = "." then "" else "a") = "a" from by simp]
  simp only [hins1, hlook, Option.getD_some, hins2, haddDir, hbump]
  simp [List.map_append]

/-- The first `aggregateChanges` scoring step, on a file `a/<nm>` from the
empty working state. -/
theorem aggStep_first (d : Int) (f0 : String)
    (hf0 : ∃ nm, f0 = "a/" ++ nm ∧ goodName nm) :
    aggStep (fun _ => some false) "" d ⟨[], [], ""⟩ f0
      = ⟨[(f0, -1), ("a", 1)], ["a"], f0⟩ := by
  obtain ⟨nm, rfl, hg⟩ := hf0
  have hclean : cleanStr ("a/" ++ nm) = "a/" ++ nm := cleanStr_file hg
  have hdot : ¬ ("a/" ++ nm = ".") := file_ne_dot nm
  have hprev : ¬ ("a/" ++ nm = "") := file_ne_empty nm
  have htrim : trimPfx (trimPfx ("a/" ++ nm) "") pathSeparator = "a/" ++ nm := by
    rw [trimPfx_empty, trimPfx_slash_file]
  have hdir : dirStr ("a/" ++ nm) = "a" := dirStr_file hg
  have hra : ¬ ("a/" ++ nm = "a") := file_ne_a nm
  have hlook : lookupKey [("a/" ++ nm, (-1 : Int))] "a" = none := by
    simp [lookupKey, hra]
  have hins2 : insertKey [("a/" ++ nm, (-1 : Int))] "a" (0 + 1)
      = [("a/" ++ nm, -1), ("a", 0 + 1)] := by
    simp [insertKey, hra]
  have hbump : bumpAncestors "a" ["a"] [("a/" ++ nm, (-1 : Int)), ("a", 0 + 1)]
      = [("a/" ++ nm, -1), ("a", 0 + 1)] := by
    apply map_id_of_all
    intro kv hkv
    rcases List.mem_cons.1 hkv with rfl | hkv2
    · simp [List.mem_singleton, hra]
    · rcases List.mem_cons.1 hkv2 with rfl | hkv3
      · simp [hasPfx_a_under_a_false]
      · simp at hkv3
  have haddDir : addDir [] "a" = ["a"] := by simp [addDir]
  simp only [aggStep, hclean, if_neg hdot, if_neg hprev, htrim, hdir]
  rw [show (if ("a" : String) = "." then "" else "a") = "a" from by simp]
  simp only [show insertKey ([] : List (String × Int)) ("a/" ++ nm) (-1)
      = [("a/" ++ nm, -1)] from rfl, hlook, Option.getD_none, hins2, haddDir, hbump]
  norm_num

/-- The scoring fold of `aggregateChanges` over a batch of distinct fresh
files under `a`: each file lands with score `-1` and the parent `a`
accumulates one point per file. -/
theorem aggFold_files (d : Int) (rs : List String) :
    ∀ (j : Int) (f0 : String) (done : List String) (prev : String),
    (∀ x ∈ rs, ∃ nm, x = "a/" ++ nm ∧ goodName nm) →
    (∃ nm, f0 = "a/" ++ nm ∧ goodName nm) →
    (∀ q ∈ done, ∃ nm, q = "a/" ++ nm ∧ goodName nm) →
    (∀ x ∈ rs, x ≠ f0 ∧ x ∉ done) →
    rs.Pairwise (fun x y => x ≠ y) →
    (prev = f0 ∨ prev ∈ done) →
    ∃ pl, rs.foldl (aggStep (fun _ => some false) "" d)
        ⟨(f0, -1) :: ("a", j) :: done.map (fun q => (q, -1)), ["a"], prev⟩
      = ⟨(f0, -1) :: ("a", j + rs.length) :: (done ++ rs).map (fun q => (q, -1)),
          ["a"], pl⟩ := by
  induction rs with
  | nil =>
    intro j f0 done prev _ _ _ _ _ _
    exact ⟨prev, by simp⟩
  | cons r rs2 ih =>
    intro j f0 done prev hgood hf0 hdone hnot hnd hprev
    rw [List.foldl_cons,
      aggStep_file d j f0 r done prev (hgood r (List.mem_cons_self _ _)) hf0 hdone
        (hnot r (List.mem_cons_self _ _)).1 (hnot r (List.mem_cons_self _ _)).2 hprev]
    obtain ⟨pl, hpl⟩ := ih (j + 1) f0 (done ++ [r]) r
      (fun x hx => hgood x (List.mem_cons_of_mem _ hx))
      hf0
      (fun q hq => by
        rcases List.mem_append.1 hq with hq1 | hq2
        · exact hdone q hq1
        · rcases List.mem_singleton.1 hq2 with rfl
          exact hgood q (List.mem_cons_self _ _))
      (fun x hx => ⟨(hnot x (List.mem_cons_of_mem _ hx)).1, by
        intro hxin
        rcases List.mem_append.1 hxin with hx1 | hx2
        · exact (hnot x (List.mem_cons_of_mem _ hx)).2 hx1
        · rcases List.mem_singleton.1 hx2 with rfl
          exact (List.pairwise_cons.1 hnd).1 x hx rfl⟩)
      (List.pairwise_cons.1 hnd).2
      (Or.inr (List.mem_append_right _ (List.mem_singleton_self _)))
    refine ⟨pl, ?_⟩
    rw [hpl]
    have hj : j + 1 + (rs2.length : Int) = j + ((r :: rs2).length : Int) := by
      simp only [List.length_cons]
      push_cast
      ring
    rw [hj, List.append_assoc, List.singleton_append]

theorem file_inj {x y : String} (h : "a/" ++ x = "a/" ++ y) : x = y := by
  have hd := congrArg String.data h
  rw [aFile_data, aFile_data] at hd
  injection hd with _ hd2
  injection hd2 with _ hd3
  rw [← string_mk_data x, ← string_mk_data y, hd3]

theorem sortStrings_files_id {nms : List String}
    (hsort : List.Pairwise (fun x y => strLt x y = true) nms) :
    sortStrings (nms.map (fun nm => "a/" ++ nm)) = nms.map (fun nm => "a/" ++ nm) := by
  apply sortStrings_sorted_id
  apply chain_le_of_pairwise_lt
  rw [List.pairwise_map]
  exact hsort.imp (fun h => by rw [strLt_file_iff]; exact h)

theorem sort_keys (nm0 : String) (rest : List String)
    (hsort : List.Pairwise (fun x y => strLt x y = true) (nm0 :: rest)) :
    sortStrings (("a/" ++ nm0) :: "a" :: rest.map (fun nm => "a/" ++ nm))
      = "a" :: ("a/" ++ nm0) :: rest.map (fun nm => "a/" ++ nm) := by
  rw [sortStrings_cons, sortStrings_cons,
    sortStrings_files_id (List.pairwise_cons.1 hsort).2]
  have h1 : insertSorted "a" (rest.map (fun nm => "a/" ++ nm))
      = "a" :: rest.map (fun nm => "a/" ++ nm) := by
    cases rest with
    | nil => rfl
    | cons r1 r2 =>
      simp only [List.map_cons, insertSorted,
        strLe_of_strLt (strLt_a_file r1), if_true]
  rw [h1]
  have h2 : strLe ("a/" ++ nm0) "a" = false := strLe_file_a_false nm0
  simp only [insertSorted, h2, Bool.false_eq_true, if_false]
  cases rest with
  | nil => rfl
  | cons r1 r2 =>
    have h3 : strLe ("a/" ++ nm0) ("a/" ++ r1) = true := by
      apply strLe_of_strLt
      rw [strLt_file_iff]
      exact (List.pairwise_cons.1 hsort).1 r1 (List.mem_cons_self _ _)
    simp only [List.map_cons, insertSorted, h3, if_true]

/-- `aggregateChanges` on a batch of sorted distinct fresh files under `a`
reduces to the selection walk over the key list `a :: files` with the file
scores `-1` and the parent score equal to the number of files. -/
theorem agg_files_reduces (d : Int) (nm0 : String) (rest : List String)
    (hgood : ∀ nm ∈ nm0 :: rest, goodName nm)
    (hsort : List.Pairwise (fun x y => strLt x y = true) (nm0 :: rest)) :
    aggregateChanges (fun _ => some false) "" d
        ((nm0 :: rest).map (fun nm => "a/" ++ nm))
      = some (selectScans
          (("a/" ++ nm0, -1) :: ("a", 1 + (rest.length : Int))
            :: rest.map (fun q => ("a/" ++ q, -1)))
          d ("a" :: (nm0 :: rest).map (fun nm => "a/" ++ nm)) "") := by
  have hne : (nm0 :: rest).map (fun nm => "a/" ++ nm) ≠ [] := by simp
  have hsorted : sortStrings ((nm0 :: rest).map (fun nm => "a/" ++ nm))
      = (nm0 :: rest).map (fun nm => "a/" ++ nm) := sortStrings_files_id hsort
  have hd0 : ∃ nm, ("a/" ++ nm0) = "a/" ++ nm ∧ goodName nm :=
    ⟨nm0, rfl, hgood nm0 (List.mem_cons_self _ _)⟩
  obtain ⟨pl, hfold⟩ := aggFold_files d (rest.map (fun nm => "a/" ++ nm)) 1
    ("a/" ++ nm0) [] ("a/" ++ nm0)
    (fun x hx => by
      rcases List.mem_map.1 hx with ⟨q, hq, rfl⟩
      exact ⟨q, rfl, hgood q (List.mem_cons_of_mem _ hq)⟩)
    hd0
    (by simp)
    (fun x hx => by
      rcases List.mem_map.1 hx with ⟨q, hq, rfl⟩
      refine ⟨fun he => ?_, by simp⟩
      have hqn : nm0 ≠ q :=
        ne_of_strLt ((List.pairwise_cons.1 hsort).1 q hq)
      exact hqn (file_inj he).symm)
    (by
      rw [List.pairwise_map]
      exact ((List.pairwise_cons.1 hsort).2).imp
        (fun hxy he => (ne_of_strLt hxy) (file_inj he)))
    (Or.inl rfl)
  have hfold2 : ((nm0 :: rest).map (fun nm => "a/" ++ nm)).foldl
      (aggStep (fun _ => some false) "" d) ⟨[], [], ""⟩
      = ⟨("a/" ++ nm0, -1) :: ("a", 1 + (rest.length : Int))
          :: rest.map (fun q => ("a/" ++ q, -1)), ["a"], pl⟩ := by
    rw [List.map_cons, List.foldl_cons, aggStep_first d _ hd0]
    rw [show ([("a/" ++ nm0, (-1 : Int)), ("a", 1)] : List (String × Int))
        = ("a/" ++ nm0, -1) :: ("a", 1)
          :: ([] : List String).map (fun q => (q, -1)) from rfl] at *
    rw [hfold]
    simp [List.map_map, Function.comp]
  have hkeys : ((("a/" ++ nm0, (-1 : Int)) :: ("a", 1 + (rest.length : Int))
      :: rest.map (fun q => ("a/" ++ q, -1))).map Prod.fst)
      = ("a/" ++ nm0) :: "a" :: rest.map (fun nm => "a/" ++ nm) := by
    simp [List.map_map, Function.comp]
  simp only [List.map_cons] at hne hsorted hfold2
  simp only [aggregateChanges, List.map_cons, if_neg hne, hsorted, hfold2, hkeys,
    sort_keys nm0 rest hsort]

theorem selectScans_skip_all (tp : List (String × Int)) (d : Int) (l : List String)
    (prev : String) (h : ∀ x ∈ l, hasPfx x (prev ++ pathSeparator) = true) :
    selectScans tp d l prev = [] := by
  induction l with
  | nil => rfl
  | cons k rest ih =>
    simp only [selectScans, h k (List.mem_cons_self _ _), if_true]
    exact ih (fun x hx => h x (List.mem_cons_of_mem _ hx))

theorem hasPfx_goodfile_prev_false {x prev : String}
    (hx : ∃ nm, x = "a/" ++ nm ∧ goodName nm)
    (hprev : prev = "" ∨ ∃ pm, prev = "a/" ++ pm ∧ goodName pm) :
    hasPfx x (prev ++ pathSeparator) = false := by
  obtain ⟨nm, rfl, hg⟩ := hx
  rcases hprev with rfl | ⟨pm, rfl, hgp⟩
  · exact hasPfx_file_under_empty_false nm
  · exact hasPfx_file_under_file_false pm hg.2.1

theorem selectScans_accept_files (tp : List (String × Int)) (d : Int) (l : List String) :
    ∀ prev : String,
    (∀ x ∈ l, lookupKey tp x = some (-1) ∧ ∃ nm, x = "a/" ++ nm ∧ goodName nm) →
    (prev = "" ∨ ∃ pm, prev = "a/" ++ pm ∧ goodName pm) →
    selectScans tp d l prev = l := by
  induction l with
  | nil =>
    intro prev _ _
    rfl
  | cons k rest ih =>
    intro prev hall hprev
    obtain ⟨hlook, hkf⟩ := hall k (List.mem_cons_self _ _)
    have hpf : hasPfx k (prev ++ pathSeparator) = false :=
      hasPfx_goodfile_prev_false hkf hprev
    have hcond : ¬ ((lookupKey tp k).getD 0 < d ∧ (lookupKey tp k).getD 0 ≠ -1) := by
      rw [hlook]
      rintro ⟨_, h2⟩
      exact h2 rfl
    have hkne : ¬ (k = "") := by
      obtain ⟨nm, rfl, _⟩ := hkf
      exact file_ne_empty nm
    simp only [selectScans, hpf, Bool.false_eq_true, if_false, if_neg hcond, if_neg hkne]
    rw [ih k (fun x hx => hall x (List.mem_cons_of_mem _ hx)) (Or.inr hkf)]

/-- **C3** (confirmed): for any batch of `L ≥ 1` distinct files sharing the
single parent directory `a` (file names well-formed and listed in
increasing byte order; classification says "existing file" everywhere),
aggregation with density threshold `T = L` returns the single scan target
`a`, while with threshold `T = L + 1` (i.e. only `T - 1` file changes) it
returns exactly the individual file paths and not the directory. -/
theorem c3_density_threshold (T : Nat) (nms : List String)
    (hgood : ∀ nm ∈ nms, goodName nm)
    (hsort : List.Pairwise (fun x y => strLt x y = true) nms)
    (hlen : 1 ≤ nms.length) :
    (nms.length = T →
      aggregateChanges (fun _ => some false) "" (T : Int)
        (nms.map (fun nm => "a/" ++ nm)) = some ["a"])
    ∧ (nms.length + 1 = T →
      aggregateChanges (fun _ => some false) "" (T : Int)
          (nms.map (fun nm => "a/" ++ nm)) = some (nms.map (fun nm => "a/" ++ nm))
        ∧ "a" ∉ nms.map (fun nm => "a/" ++ nm)) := by
  obtain ⟨nm0, rest, rfl⟩ : ∃ x l, nms = x :: l := by
    cases nms with
    | nil => simp at hlen
    | cons x l => exact ⟨x, l, rfl⟩
  have hred := agg_files_reduces (T : Int) nm0 rest hgood hsort
  have hf0a : ¬ ("a/" ++ nm0 = "a") := file_ne_a nm0
  have hlookA : lookupKey (("a/" ++ nm0, (-1 : Int)) :: ("a", 1 + (rest.length : Int))
      :: rest.map (fun q => ("a/" ++ q, -1))) "a" = some (1 + (rest.length : Int)) := by
    simp [lookupKey, hf0a]
  have hpfa : hasPfx "a" (("" : String) ++ pathSeparator) = false := by decide
  have hane : ¬ (("a" : String) = "") := by decide
  have hlooks : ∀ x ∈ ("a/" ++ nm0) :: rest.map (fun nm => "a/" ++ nm),
      lookupKey (("a/" ++ nm0, (-1 : Int)) :: ("a", 1 + (rest.length : Int))
        :: rest.map (fun q => ("a/" ++ q, -1))) x = some (-1)
      ∧ ∃ nm, x = "a/" ++ nm ∧ goodName nm := by
    intro x hx
    rcases List.mem_cons.1 hx with rfl | hx2
    · exact ⟨by simp [lookupKey], nm0, rfl, hgood nm0 (List.mem_cons_self _ _)⟩
    · rcases List.mem_map.1 hx2 with ⟨q, hq, rfl⟩
      have hqn : ¬ ("a/" ++ nm0 = "a/" ++ q) := fun he =>
        (ne_of_strLt ((List.pairwise_cons.1 hsort).1 q hq)) (file_inj he)
      have hqa : ¬ (("a" : String) = "a/" ++ q) := fun he => (file_ne_a q) he.symm
      refine ⟨?_, q, rfl, hgood q (List.mem_cons_of_mem _ hq)⟩
      simp only [lookupKey, if_neg hqn, if_neg hqa]
      rw [show rest.map (fun q => ("a/" ++ q, (-1 : Int)))
          = (rest.map (fun nm => "a/" ++ nm)).map (fun p => (p, -1)) from by
        simp [List.map_map, Function.comp]]
      exact lookupKey_map_const (-1) (List.mem_map_of_mem _ hq)
  constructor
  · intro hT
    have hscore : (1 : Int) + (rest.length : Int) = (T : Int) := by
      simp only [List.length_cons] at hT
      omega
    have hcond : ¬ ((lookupKey (("a/" ++ nm0, (-1 : Int)) :: ("a", 1 + (rest.length : Int))
        :: rest.map (fun q => ("a/" ++ q, -1))) "a").getD 0 < (T : Int)
        ∧ (lookupKey (("a/" ++ nm0, (-1 : Int)) :: ("a", 1 + (rest.length : Int))
        :: rest.map (fun q => ("a/" ++ q, -1))) "a").getD 0 ≠ -1) := by
      rw [hlookA]
      rintro ⟨h1, _⟩
      simp only [Option.getD_some, hscore] at h1
      exact lt_irrefl _ h1
    rw [hred]
    simp only [List.map_cons, selectScans, hpfa, Bool.false_eq_true, if_false,
      if_neg hcond, if_neg hane]
    rw [selectScans_skip_all _ _ (rest.map (fun nm => "a/" ++ nm)) "a" (fun x hx => by
      rcases List.mem_map.1 hx with ⟨q, _, rfl⟩
      exact hasPfx_file_under_a q)]
    simp [hasPfx_file_under_a nm0]
  · intro hT
    constructor
    · have hcond : ((lookupKey (("a/" ++ nm0, (-1 : Int)) :: ("a", 1 + (rest.length : Int))
          :: rest.map (fun q => ("a/" ++ q, -1))) "a").getD 0 < (T : Int)
          ∧ (lookupKey (("a/" ++ nm0, (-1 : Int)) :: ("a", 1 + (rest.length : Int))
          :: rest.map (fun q => ("a/" ++ q, -1))) "a").getD 0 ≠ -1) := by
        rw [hlookA]
        simp only [Option.getD_some, List.length_cons] at hT ⊢
        constructor
        · omega
        · intro he
          omega
      rw [hred]
      simp only [List.map_cons, selectScans, hpfa, Bool.false_eq_true, if_false,
        if_pos hcond]
      have hlookf0 : lookupKey (("a/" ++ nm0, (-1 : Int)) :: ("a", 1 + (rest.length : Int))
          :: rest.map (fun q => ("a/" ++ q, -1))) ("a/" ++ nm0) = some (-1) :=
        (hlooks ("a/" ++ nm0) (List.mem_cons_self _ _)).1
      have hcond2 : ¬ ((lookupKey (("a/" ++ nm0, (-1 : Int)) :: ("a", 1 + (rest.length : Int))
          :: rest.map (fun q => ("a/" ++ q, -1))) ("a/" ++ nm0)).getD 0 < (T : Int)
          ∧ (lookupKey (("a/" ++ nm0, (-1 : Int)) :: ("a", 1 + (rest.length : Int))
          :: rest.map (fun q => ("a/" ++ q, -1))) ("a/" ++ nm0)).getD 0 ≠ -1) := by
        rw [hlookf0]
        rintro ⟨_, h2⟩
        exact h2 rfl
      simp only [hasPfx_file_under_empty_false nm0, Bool.false_eq_true, if_false,
        if_neg hcond2, if_neg (file_ne_empty nm0)]
      rw [selectScans_accept_files _ _ (rest.map (fun nm => "a/" ++ nm)) ("a/" ++ nm0)
        (fun x hx => hlooks x (List.mem_cons_of_mem _ hx))
        (Or.inr ⟨nm0, rfl, hgood nm0 (List.mem_cons_self _ _)⟩)]
    · intro hmem
      rcases List.mem_map.1 hmem with ⟨q, _, he⟩
      exact (file_ne_a q) he

/-- **C3** (witness: two files under `a` with threshold 2 give the single
target `a`; one file with threshold 2 stays an individual file target). -/
theorem c3_witness :
    aggregateChanges (fun _ => some false) "" ((2 : Nat) : Int) ["a/f", "a/g"]
      = some ["a"]
    ∧ aggregateChanges (fun _ => some false) "" ((2 : Nat) : Int) ["a/f"]
      = some ["a/f"] := by
  constructor
  · exact (c3_density_threshold 2 ["f", "g"] (by decide)
      (by decide) (by decide)).1 (by decide)
  · exact ((c3_density_threshold 2 ["f"] (by decide)
      (by decide) (by decide)).2 (by decide)).1

end SyncWatcher
